import Mathlib

/-!
Verification development for the TileDB filter-pipeline subsystem and its
C-API surface.  Pure functions from the sources (`Filter::to_str`,
`tiledb_generate_data`, `query_serialize` / `query_deserialize`) are embedded
directly; the filter-pipeline core (Chunker, Filter variants, FilterPipeline,
FilteredBuffer), whose implementation files are not among the provided
sources, is modelled from the specification (each such definition carries a
doc comment starting with "Modelled from the spec:").
-/

namespace TileDB

/-- A byte, the unit of all pipeline buffers. -/
abbrev Byte := Fin 256

/-! ## Bit-level encoding helpers (little-endian) -/

/-- Modelled from the spec: little-endian unpacking of the low `b` bits of a
natural number, used by the bit-level filters (BITSHUFFLE and
BIT_WIDTH_REDUCTION). -/
def natToBits : Nat → Nat → List Bool
  | 0, _ => []
  | b + 1, n => (n % 2 == 1) :: natToBits b (n / 2)

/-- Modelled from the spec: little-endian repacking of a bit list into a
natural number; inverse of `natToBits`. -/
def bitsToNat : List Bool → Nat
  | [] => 0
  | bit :: rest => (if bit then 1 else 0) + 2 * bitsToNat rest

theorem natToBits_length (b n : Nat) : (natToBits b n).length = b := by
  induction b generalizing n with
  | zero => rfl
  | succ b ih => simp [natToBits, ih]

theorem bitsToNat_natToBits (b n : Nat) (h : n < 2 ^ b) :
    bitsToNat (natToBits b n) = n := by
  induction b generalizing n with
  | zero =>
    simp [natToBits, bitsToNat]
    omega
  | succ b ih =>
    have h2 : n / 2 < 2 ^ b := by
      have : 2 ^ (b + 1) = 2 ^ b * 2 := by ring
      omega
    simp only [natToBits, bitsToNat, ih (n / 2) h2]
    rcases Nat.mod_two_eq_zero_or_one n with h0 | h1
    · simp [h0]; omega
    · simp [h1]; omega

theorem bitsToNat_lt (l : List Bool) : bitsToNat l < 2 ^ l.length := by
  induction l with
  | nil => simp [bitsToNat]
  | cons bit rest ih =>
    simp only [bitsToNat, List.length_cons, pow_succ]
    cases bit <;> simp <;> omega

theorem natToBits_bitsToNat (l : List Bool) :
    natToBits l.length (bitsToNat l) = l := by
  induction l with
  | nil => rfl
  | cons bit rest ih =>
    simp only [List.length_cons, natToBits, bitsToNat]
    cases bit
    · simp only [if_false, Bool.false_eq_true]
      congr 1
      · simp [Nat.mul_mod_right]
      · rw [show (0 + 2 * bitsToNat rest) / 2 = bitsToNat rest by omega]
        exact ih
    · simp only [if_true]
      congr 1
      · simp [Nat.add_mul_mod_self_left]
      · rw [show (1 + 2 * bitsToNat rest) / 2 = bitsToNat rest by omega]
        exact ih

/-! ## Byte-level encoding helpers (little-endian) -/

/-- Modelled from the spec: little-endian encoding of a fixed-width numeric
element (the tile's element width in bytes) into bytes. -/
def natToBytesLE : Nat → Nat → List Byte
  | 0, _ => []
  | w + 1, n => ⟨n % 256, by omega⟩ :: natToBytesLE w (n / 256)

/-- Modelled from the spec: little-endian decoding of bytes into the numeric
value of one fixed-width element; inverse of `natToBytesLE`. -/
def bytesToNat : List Byte → Nat
  | [] => 0
  | b :: rest => b.val + 256 * bytesToNat rest

theorem natToBytesLE_length (w n : Nat) : (natToBytesLE w n).length = w := by
  induction w generalizing n with
  | zero => rfl
  | succ w ih => simp [natToBytesLE, ih]

theorem bytesToNat_natToBytesLE (w n : Nat) (h : n < 256 ^ w) :
    bytesToNat (natToBytesLE w n) = n := by
  induction w generalizing n with
  | zero =>
    simp [natToBytesLE, bytesToNat]
    omega
  | succ w ih =>
    have h2 : n / 256 < 256 ^ w := by
      have : 256 ^ (w + 1) = 256 ^ w * 256 := by ring
      omega
    simp only [natToBytesLE, bytesToNat, ih (n / 256) h2]
    omega

theorem bytesToNat_lt (l : List Byte) : bytesToNat l < 256 ^ l.length := by
  induction l with
  | nil => simp [bytesToNat]
  | cons b rest ih =>
    simp only [bytesToNat, List.length_cons, pow_succ]
    have hb := b.isLt
    omega

theorem natToBytesLE_bytesToNat (l : List Byte) :
    natToBytesLE l.length (bytesToNat l) = l := by
  induction l with
  | nil => rfl
  | cons b rest ih =>
    simp only [List.length_cons, natToBytesLE, bytesToNat]
    have hb := b.isLt
    congr 1
    · apply Fin.ext
      simp

    · rw [show (b.val + 256 * bytesToNat rest) / 256 = bytesToNat rest by omega]
      exact ih

/-! ## Chunker: size-based splitting and reassembly -/

/-- Modelled from the spec: fuel-driven worker splitting a buffer into
consecutive chunks of at most `s` elements (the fuel is the buffer length,
which bounds the number of chunks). -/
def chunksGo {α : Type} (s : Nat) : Nat → List α → List (List α)
  | 0, _ => []
  | _, [] => []
  | fuel + 1, l => l.take s :: chunksGo s fuel (l.drop s)

/-- Modelled from the spec: `split(buffer, s)` — the Chunker's purely
size-based split of a byte buffer into an ordered sequence of chunks of at
most `s` bytes each (the final chunk takes the remainder). -/
def chunksOf {α : Type} (s : Nat) (l : List α) : List (List α) :=
  chunksGo s l.length l

theorem chunksGo_fuel_irrel {α : Type} (s : Nat) (hs : 0 < s) :
    ∀ f1 : Nat, ∀ f2 : Nat, ∀ l : List α, l.length ≤ f1 → l.length ≤ f2 →
      chunksGo s f1 l = chunksGo s f2 l := by
  intro f1
  induction f1 with
  | zero =>
    intro f2 l h1 h2
    have : l = [] := List.eq_nil_of_length_eq_zero (by omega)
    subst this
    cases f2 <;> rfl
  | succ f1 ih =>
    intro f2 l h1 h2
    cases l with
    | nil => cases f2 <;> rfl
    | cons a t =>
      cases f2 with
      | zero => simp at h2
      | succ f2 =>
        simp only [chunksGo]
        congr 1
        apply ih
        · simp only [List.length_drop, List.length_cons]
          simp only [List.length_cons] at h1
          omega
        · simp only [List.length_drop, List.length_cons]
          simp only [List.length_cons] at h2
          omega

theorem chunksGo_flatten {α : Type} (s : Nat) (hs : 0 < s) :
    ∀ fuel : Nat, ∀ l : List α, l.length ≤ fuel →
      (chunksGo s fuel l).flatten = l := by
  intro fuel
  induction fuel with
  | zero =>
    intro l h
    have : l = [] := List.eq_nil_of_length_eq_zero (by omega)
    subst this
    rfl
  | succ fuel ih =>
    intro l h
    cases l with
    | nil => rfl
    | cons a t =>
      simp only [chunksGo, List.flatten_cons]
      rw [ih]
      · exact List.take_append_drop s (a :: t)
      · simp only [List.length_drop, List.length_cons]
        simp only [List.length_cons] at h
        omega

/-- Joining the chunks reproduces the original buffer. -/
theorem chunksOf_flatten {α : Type} (s : Nat) (hs : 0 < s) (l : List α) :
    (chunksOf s l).flatten = l :=
  chunksGo_flatten s hs l.length l le_rfl

/-- Appending a full-size chunk in front prepends one chunk to the split. -/
theorem chunksOf_append {α : Type} (s : Nat) (hs : 0 < s) (a l : List α)
    (ha : a.length = s) : chunksOf s (a ++ l) = a :: chunksOf s l := by
  cases a with
  | nil =>
    exfalso
    simp at ha
    omega
  | cons hd tl =>
    unfold chunksOf
    rw [List.cons_append, List.length_cons]
    simp only [chunksGo]
    congr 1
    · rw [← List.cons_append,
        List.take_append_of_le_length (show s ≤ (hd :: tl).length by omega),
        ← ha, List.take_length]
    · rw [← List.cons_append,
        List.drop_append_of_le_length (show s ≤ (hd :: tl).length by omega),
        ← ha, List.drop_length, List.nil_append]
      apply chunksGo_fuel_irrel (hd :: tl).length
        (by rw [List.length_cons]; omega)
      · rw [List.length_append]
        omega
      · exact le_rfl

theorem chunksOf_nil {α : Type} (s : Nat) : chunksOf s ([] : List α) = [] := rfl

/-- Splitting the concatenation of equal-length blocks recovers the blocks. -/
theorem chunksOf_flatMap {α β : Type} (s : Nat) (hs : 0 < s) (f : α → List β)
    (hf : ∀ a, (f a).length = s) (l : List α) :
    chunksOf s (l.flatMap f) = l.map f := by
  induction l with
  | nil => rfl
  | cons a t ih =>
    simp only [List.flatMap_cons, List.map_cons]
    rw [chunksOf_append s hs _ _ (hf a), ih]

/-- Every chunk of an `s`-divisible buffer has length exactly `s`. -/
theorem chunksOf_length_mem {α : Type} (s : Nat) (hs : 0 < s) (l : List α)
    (hdvd : s ∣ l.length) : ∀ c ∈ chunksOf s l, c.length = s := by
  obtain ⟨k, hk⟩ := hdvd
  induction k generalizing l with
  | zero =>
    have : l = [] := List.eq_nil_of_length_eq_zero (by omega)
    subst this
    simp [chunksOf_nil]
  | succ k ih =>
    intro c hc
    have htd := List.take_append_drop s l
    have hlt : (l.take s).length = s := by
      simp only [List.length_take]
      simp only [hk, Nat.mul_succ]
      omega
    rw [← htd, chunksOf_append s hs _ _ hlt, List.mem_cons] at hc
    rcases hc with rfl | hc
    · exact hlt
    · apply ih (l.drop s) _ c hc
      rw [List.length_drop, hk, Nat.mul_succ]
      omega

/-- All chunks except possibly the final one have length exactly `s`. -/
theorem chunksGo_dropLast_length {α : Type} (s : Nat) (hs : 0 < s) :
    ∀ fuel : Nat, ∀ l : List α, l.length ≤ fuel →
      ∀ c ∈ (chunksGo s fuel l).dropLast, c.length = s := by
  intro fuel
  induction fuel with
  | zero =>
    intro l h c hc
    have : l = [] := List.eq_nil_of_length_eq_zero (by omega)
    subst this
    simp [chunksGo] at hc
  | succ fuel ih =>
    intro l h c hc
    cases l with
    | nil => simp [chunksGo] at hc
    | cons a t =>
      simp only [chunksGo] at hc
      by_cases hd : ((a :: t).drop s) = []
      · have hz : chunksGo s fuel ((a :: t).drop s) = [] := by
          rw [hd]; cases fuel <;> rfl
        rw [hz] at hc
        simp at hc
      · have hlen : s < (a :: t).length := by
          by_contra hcon
          exact hd (List.drop_eq_nil_of_le (by omega))
        have hdl0 : ((a :: t).drop s).length ≠ 0 := by
          intro hz
          exact hd (List.eq_nil_of_length_eq_zero hz)
        have hfuel : 1 ≤ fuel := by
          simp only [List.length_drop, List.length_cons] at hdl0
          simp only [List.length_cons] at h
          omega
        obtain ⟨fuel1, rfl⟩ : ∃ k, fuel = k + 1 := ⟨fuel - 1, by omega⟩
        have hne : chunksGo s (fuel1 + 1) ((a :: t).drop s) ≠ [] := by
          cases hdl : (a :: t).drop s with
          | nil => exact absurd hdl hd
          | cons x y => simp [chunksGo]
        rw [List.dropLast_cons_of_ne_nil hne, List.mem_cons] at hc
        rcases hc with rfl | hc
        · rw [List.length_take]
          omega
        · apply ih ((a :: t).drop s) _ c hc
          simp only [List.length_drop, List.length_cons]
          simp only [List.length_cons] at h
          omega

/-- All chunks except possibly the final one of `chunksOf` have length `s`. -/
theorem chunksOf_dropLast_length {α : Type} (s : Nat) (hs : 0 < s)
    (l : List α) : ∀ c ∈ (chunksOf s l).dropLast, c.length = s :=
  chunksGo_dropLast_length s hs l.length l le_rfl

/-! ## Bit-stream packing into bytes -/

/-- Modelled from the spec: assembling eight bits (little-endian) into one
byte; fewer than eight bits are zero-padded at the top. -/
def byteOfBits (l : List Bool) : Byte := ⟨bitsToNat l % 256, by omega⟩

/-- Modelled from the spec: the eight bits of a byte, little-endian. -/
def byteBits (x : Byte) : List Bool := natToBits 8 x.val

/-- Modelled from the spec: packing a bit stream into bytes, eight bits per
byte, the final byte zero-padded. -/
def packBytes : List Bool → List Byte
  | b0 :: b1 :: b2 :: b3 :: b4 :: b5 :: b6 :: b7 :: rest =>
    byteOfBits [b0, b1, b2, b3, b4, b5, b6, b7] :: packBytes rest
  | [] => []
  | l => [byteOfBits l]

/-- Modelled from the spec: unpacking a byte buffer into its bit stream. -/
def unpackBytes (l : List Byte) : List Bool := l.flatMap byteBits

theorem byteBits_length (x : Byte) : (byteBits x).length = 8 :=
  natToBits_length 8 x.val

theorem unpackBytes_length (l : List Byte) :
    (unpackBytes l).length = 8 * l.length := by
  induction l with
  | nil => rfl
  | cons b rest ih =>
    simp only [unpackBytes, List.flatMap_cons, List.length_append,
      byteBits_length, List.length_cons] at *
    omega

theorem byteBits_byteOfBits (l : List Bool) (h : l.length = 8) :
    byteBits (byteOfBits l) = l := by
  have h1 : bitsToNat l < 256 := by
    have := bitsToNat_lt l
    rw [h] at this
    norm_num at this
    exact this
  unfold byteBits byteOfBits
  simp only [Nat.mod_eq_of_lt h1]
  rw [← h]
  exact natToBits_bitsToNat l

theorem byteOfBits_byteBits (x : Byte) : byteOfBits (byteBits x) = x := by
  unfold byteOfBits byteBits
  apply Fin.ext
  simp only [bitsToNat_natToBits 8 x.val (by show x.val < 256; exact x.isLt)]
  exact Nat.mod_eq_of_lt x.isLt

theorem unpackBytes_packBytes :
    ∀ n : Nat, ∀ l : List Bool, l.length ≤ n → 8 ∣ l.length →
      unpackBytes (packBytes l) = l := by
  intro n
  induction n with
  | zero =>
    intro l hn hdvd
    have : l = [] := List.eq_nil_of_length_eq_zero (by omega)
    subst this
    rfl
  | succ n ih =>
    intro l hn hdvd
    match l with
    | [] => rfl
    | [b0] | [b0, b1] | [b0, b1, b2] | [b0, b1, b2, b3] | [b0, b1, b2, b3, b4]
    | [b0, b1, b2, b3, b4, b5] | [b0, b1, b2, b3, b4, b5, b6] =>
      exfalso
      simp only [List.length_cons, List.length_nil] at hdvd
      omega
    | b0 :: b1 :: b2 :: b3 :: b4 :: b5 :: b6 :: b7 :: rest =>
      have hr : 8 ∣ rest.length := by
        simp only [List.length_cons] at hdvd
        omega
      have hrn : rest.length ≤ n := by
        simp only [List.length_cons] at hn
        omega
      simp only [packBytes, unpackBytes, List.flatMap_cons]
      rw [byteBits_byteOfBits [b0, b1, b2, b3, b4, b5, b6, b7] (by simp)]
      have := ih rest hrn hr
      unfold unpackBytes at this
      rw [this]
      rfl

theorem packBytes_unpackBytes (l : List Byte) :
    packBytes (unpackBytes l) = l := by
  induction l with
  | nil => rfl
  | cons b rest ih =>
    have hb : byteBits b = [b.val % 2 == 1, b.val / 2 % 2 == 1,
        b.val / 2 / 2 % 2 == 1, b.val / 2 / 2 / 2 % 2 == 1,
        b.val / 2 / 2 / 2 / 2 % 2 == 1, b.val / 2 / 2 / 2 / 2 / 2 % 2 == 1,
        b.val / 2 / 2 / 2 / 2 / 2 / 2 % 2 == 1,
        b.val / 2 / 2 / 2 / 2 / 2 / 2 / 2 % 2 == 1] := by
      unfold byteBits
      simp [natToBits]
    have hob : byteOfBits (byteBits b) = b := byteOfBits_byteBits b
    simp only [unpackBytes, List.flatMap_cons] at *
    rw [hb]
    simp only [List.cons_append, List.nil_append, packBytes]
    rw [← hb, hob]
    show b :: packBytes (rest.flatMap byteBits) = b :: rest
    rw [ih]

/-! ## Shuffle permutation (shared by BYTESHUFFLE and BITSHUFFLE) -/

/-- Modelled from the spec: the forward shuffle reorders the units of
`w`-wide elements so that same-offset positions are clustered together
(element `i`, offset `j` moves to position `j * n + i` where `n` is the
number of elements). -/
def shuffleFwd {α : Type} (w : Nat) (d : α) (l : List α) : List α :=
  @List.ofFn α l.length fun p =>
    l.getD ((p.val % (l.length / w)) * w + p.val / (l.length / w)) d

/-- Modelled from the spec: the reverse shuffle, the exact inverse
permutation of `shuffleFwd`. -/
def shuffleRev {α : Type} (w : Nat) (d : α) (l : List α) : List α :=
  @List.ofFn α l.length fun q =>
    l.getD ((q.val % w) * (l.length / w) + q.val / w) d

theorem shuffleFwd_length {α : Type} (w : Nat) (d : α) (l : List α) :
    (shuffleFwd w d l).length = l.length := by
  simp [shuffleFwd]

theorem shuffleRev_length {α : Type} (w : Nat) (d : α) (l : List α) :
    (shuffleRev w d l).length = l.length := by
  simp [shuffleRev]

theorem shuffleRev_shuffleFwd {α : Type} (w : Nat) (hw : 0 < w) (d : α)
    (l : List α) (hdvd : w ∣ l.length) :
    shuffleRev w d (shuffleFwd w d l) = l := by
  apply List.ext_getElem
  · rw [shuffleRev_length, shuffleFwd_length]
  · intro q hq hql
    rw [shuffleRev_length, shuffleFwd_length] at hq
    obtain ⟨n, hn⟩ := hdvd
    have hn0 : 0 < n := by
      rcases Nat.eq_zero_or_pos n with rfl | h0
      · exfalso; omega
      · exact h0
    have hnl : l.length / w = n := by rw [hn]; exact Nat.mul_div_cancel_left n hw
    unfold shuffleRev
    rw [List.getElem_ofFn]
    have hlen : (shuffleFwd w d l).length = l.length := shuffleFwd_length w d l
    have hqw : q / w < n := by
      apply Nat.div_lt_of_lt_mul
      omega
    have hidx1 : (q % w) * ((shuffleFwd w d l).length / w) + q / w <
        (shuffleFwd w d l).length := by
      rw [hlen, hnl, hn]
      have h1 : q % w < w := Nat.mod_lt q hw
      have h2 : (q % w) * n + q / w < (q % w) * n + n := by omega
      calc (q % w) * n + q / w < (q % w) * n + n := h2
        _ = (q % w + 1) * n := by ring
        _ ≤ w * n := Nat.mul_le_mul_right n (by omega)
    rw [List.getD_eq_getElem _ _ hidx1]
    simp only [hlen, hnl]
    unfold shuffleFwd
    rw [List.getElem_ofFn]
    simp only [hnl]
    have e1 : ((q % w) * n + q / w) % n = q / w := by
      rw [Nat.mul_comm (q % w) n, Nat.mul_add_mod]
      exact Nat.mod_eq_of_lt hqw
    have e2 : ((q % w) * n + q / w) / n = q % w := by
      rw [Nat.mul_comm (q % w) n, Nat.mul_add_div hn0,
        Nat.div_eq_of_lt hqw, Nat.add_zero]
    rw [e1, e2]
    have e3 : q / w * w + q % w = q := by
      rw [Nat.mul_comm]
      exact Nat.div_add_mod q w
    rw [e3, List.getD_eq_getElem _ _ (by omega)]

/-! ## Delta encodings over element values (arithmetic modulo 256 ^ width) -/

/-- Modelled from the spec: consecutive differences modulo `M` of a value
list, seeded with the previous element `prev` (the chunk's continuation
state). -/
def pairDiffs (M : Nat) : Nat → List Nat → List Nat
  | _, [] => []
  | prev, x :: xs => (M + x - prev) % M :: pairDiffs M x xs

/-- Modelled from the spec: prefix-sum reconstruction modulo `M`, the inverse
of `pairDiffs` for in-range values. -/
def pairSums (M : Nat) : Nat → List Nat → List Nat
  | _, [] => []
  | prev, d :: ds => (prev + d) % M :: pairSums M ((prev + d) % M) ds

theorem pairDiffs_length (M prev : Nat) (l : List Nat) :
    (pairDiffs M prev l).length = l.length := by
  induction l generalizing prev with
  | nil => rfl
  | cons x xs ih => simp [pairDiffs, ih]

theorem pairDiffs_lt (M : Nat) (hM : 0 < M) (prev : Nat) (l : List Nat) :
    ∀ d ∈ pairDiffs M prev l, d < M := by
  induction l generalizing prev with
  | nil => intro d hd; simp [pairDiffs] at hd
  | cons x xs ih =>
    intro d hd
    simp only [pairDiffs, List.mem_cons] at hd
    rcases hd with rfl | hd
    · exact Nat.mod_lt _ hM
    · exact ih x d hd

theorem pairSums_pairDiffs (M : Nat) (hM : 0 < M) (l : List Nat) :
    ∀ prev : Nat, prev < M → (∀ x ∈ l, x < M) →
      pairSums M prev (pairDiffs M prev l) = l := by
  induction l with
  | nil => intro prev _ _; rfl
  | cons x xs ih =>
    intro prev hprev hl
    have hx : x < M := hl x (List.mem_cons_self x xs)
    have key : (prev + (M + x - prev) % M) % M = x := by
      rcases le_or_lt prev x with hle | hlt
      · have h1 : (M + x - prev) % M = x - prev := by
          rw [show M + x - prev = M + (x - prev) by omega,
            Nat.add_mod_left]
          exact Nat.mod_eq_of_lt (by omega)
        rw [h1]
        rw [show prev + (x - prev) = x by omega]
        exact Nat.mod_eq_of_lt hx
      · have h1 : (M + x - prev) % M = M + x - prev := Nat.mod_eq_of_lt (by omega)
        rw [h1, show prev + (M + x - prev) = M + x by omega, Nat.add_mod_left]
        exact Nat.mod_eq_of_lt hx
    simp only [pairDiffs, pairSums, key]
    congr 1
    exact ih x hx (fun y hy => hl y (List.mem_cons_of_mem x hy))

/-- Modelled from the spec: POSITIVE_DELTA forward differences; `none` when a
difference is negative (the forward pass then fails with an encoding
error). -/
def posDiffs : Nat → List Nat → Option (List Nat)
  | _, [] => some []
  | prev, x :: xs =>
    if x < prev then none
    else (posDiffs x xs).map (fun ds => (x - prev) :: ds)

/-- Modelled from the spec: POSITIVE_DELTA reverse prefix sums. -/
def posSums : Nat → List Nat → List Nat
  | _, [] => []
  | prev, d :: ds => (prev + d) :: posSums (prev + d) ds

theorem posSums_posDiffs (l : List Nat) :
    ∀ prev ds, posDiffs prev l = some ds → posSums prev ds = l := by
  induction l with
  | nil =>
    intro prev ds h
    simp only [posDiffs, Option.some.injEq] at h
    rw [← h]
    rfl
  | cons x xs ih =>
    intro prev ds h
    simp only [posDiffs] at h
    by_cases hlt : x < prev
    · rw [if_pos hlt] at h
      exact Option.noConfusion h
    · rw [if_neg hlt] at h
      cases hx : posDiffs x xs with
      | none => rw [hx] at h; simp at h
      | some ds1 =>
        rw [hx, Option.map_some'] at h
        injection h with h
        rw [← h]
        simp only [posSums, show prev + (x - prev) = x by omega]
        congr 1
        exact ih x ds1 hx

theorem posDiffs_lt (M : Nat) (l : List Nat) :
    ∀ prev ds, posDiffs prev l = some ds → (∀ x ∈ l, x < M) →
      ∀ d ∈ ds, d < M := by
  induction l with
  | nil =>
    intro prev ds h _
    simp only [posDiffs, Option.some.injEq] at h
    rw [← h]
    intro d hd
    simp at hd
  | cons x xs ih =>
    intro prev ds h hl d hd
    simp only [posDiffs] at h
    by_cases hlt : x < prev
    · rw [if_pos hlt] at h
      exact Option.noConfusion h
    · rw [if_neg hlt] at h
      cases hx : posDiffs x xs with
      | none => rw [hx] at h; simp at h
      | some ds1 =>
        rw [hx, Option.map_some'] at h
        injection h with h
        rw [← h] at hd
        rcases List.mem_cons.mp hd with rfl | hd1
        · have := hl x (List.mem_cons_self x xs)
          omega
        · exact ih x ds1 hx (fun y hy => hl y (List.mem_cons_of_mem x hy)) d hd1

/-! ## Minimum and bit-width helpers for BIT_WIDTH_REDUCTION -/

/-- Modelled from the spec: the per-chunk minimum value. -/
def minA : List Nat → Nat
  | [] => 0
  | [x] => x
  | x :: y :: ys => min x (minA (y :: ys))

/-- Modelled from the spec: the per-chunk maximum value (0 for an empty
chunk), used to compute the required bit width. -/
def maxA : List Nat → Nat := fun l => l.foldr max 0

theorem minA_le (l : List Nat) : ∀ x ∈ l, minA l ≤ x := by
  induction l with
  | nil => intro x hx; simp at hx
  | cons a t ih =>
    intro x hx
    cases t with
    | nil =>
      simp at hx
      simp [minA, hx]
    | cons b u =>
      rcases List.mem_cons.mp hx with rfl | hx1
      · simp [minA]
      · exact le_trans (by simp [minA]) (ih x hx1)

theorem le_maxA (l : List Nat) : ∀ x ∈ l, x ≤ maxA l := by
  induction l with
  | nil => intro x hx; simp at hx
  | cons a t ih =>
    intro x hx
    rcases List.mem_cons.mp hx with rfl | hx1
    · simp [maxA]
    · simp only [maxA, List.foldr_cons]
      exact le_trans (ih x hx1) (Nat.le_max_right _ _)

/-! ## Fixed-width element views of a byte chunk -/

/-- Modelled from the spec: serializing a list of element values back into a
byte buffer, `w` bytes per element, little-endian. -/
def encodeVals (w : Nat) (vs : List Nat) : List Byte :=
  vs.flatMap (natToBytesLE w)

/-- Modelled from the spec: the fixed-width numeric elements of a chunk —
the byte buffer reinterpreted as contiguous `w`-byte little-endian values. -/
def decodeVals (w : Nat) (l : List Byte) : List Nat :=
  (chunksOf w l).map bytesToNat

theorem flatMap_eq_flatten_of {β : Type} (l : List (List β))
    (f : List β → List β) (h : ∀ c ∈ l, f c = c) : l.flatMap f = l.flatten := by
  induction l with
  | nil => rfl
  | cons a t ih =>
    simp only [List.flatMap_cons, List.flatten_cons,
      h a (List.mem_cons_self a t)]
    rw [ih (fun c hc => h c (List.mem_cons_of_mem a hc))]

theorem flatMap_length_const {α β : Type} (s : Nat) (f : α → List β)
    (hf : ∀ a, (f a).length = s) (l : List α) :
    (l.flatMap f).length = s * l.length := by
  induction l with
  | nil => simp
  | cons a t ih =>
    simp only [List.flatMap_cons, List.length_append, hf a, ih,
      List.length_cons]
    ring

theorem encodeVals_decodeVals (w : Nat) (hw : 0 < w) (l : List Byte)
    (hdvd : w ∣ l.length) : encodeVals w (decodeVals w l) = l := by
  unfold encodeVals decodeVals
  rw [List.flatMap_map]
  have h1 : ∀ c ∈ chunksOf w l, natToBytesLE w (bytesToNat c) = c := by
    intro c hc
    have hcl : c.length = w := chunksOf_length_mem w hw l hdvd c hc
    rw [← hcl]
    exact natToBytesLE_bytesToNat c
  calc (chunksOf w l).flatMap (fun c => natToBytesLE w (bytesToNat c))
      = (chunksOf w l).flatten := by
        apply flatMap_eq_flatten_of
        exact h1
    _ = l := chunksOf_flatten w hw l

theorem decodeVals_encodeVals (w : Nat) (hw : 0 < w) (vs : List Nat)
    (hvs : ∀ v ∈ vs, v < 256 ^ w) : decodeVals w (encodeVals w vs) = vs := by
  unfold encodeVals decodeVals
  rw [chunksOf_flatMap w hw (natToBytesLE w) (natToBytesLE_length w) vs,
    List.map_map]
  calc vs.map (bytesToNat ∘ natToBytesLE w)
      = vs.map id := by
        apply List.map_congr_left
        intro v hv
        exact bytesToNat_natToBytesLE w v (hvs v hv)
    _ = vs := List.map_id vs

theorem decodeVals_lt (w : Nat) (hw : 0 < w) (l : List Byte)
    (hdvd : w ∣ l.length) : ∀ v ∈ decodeVals w l, v < 256 ^ w := by
  intro v hv
  unfold decodeVals at hv
  rw [List.mem_map] at hv
  obtain ⟨c, hc, rfl⟩ := hv
  have hcl : c.length = w := chunksOf_length_mem w hw l hdvd c hc
  have := bytesToNat_lt c
  rw [hcl] at this
  exact this

theorem encodeVals_length (w : Nat) (vs : List Nat) :
    (encodeVals w vs).length = w * vs.length :=
  flatMap_length_const w (natToBytesLE w) (natToBytesLE_length w) vs

theorem decodeVals_length (w : Nat) (hw : 0 < w) (l : List Byte)
    (hdvd : w ∣ l.length) : (decodeVals w l).length = l.length / w := by
  obtain ⟨k, hk⟩ := hdvd
  have he : encodeVals w (decodeVals w l) = l :=
    encodeVals_decodeVals w hw l ⟨k, hk⟩
  have h1 : (encodeVals w (decodeVals w l)).length = l.length := by rw [he]
  rw [encodeVals_length] at h1
  rw [hk] at h1 ⊢
  rw [Nat.mul_div_cancel_left k hw]
  exact Nat.eq_of_mul_eq_mul_left hw h1

/-! ## Filters -/

/-- Modelled from the spec: the closed tagged-variant type over the eleven
enumerated filter kinds (§9: polymorphic filter dispatch becomes a closed
variant, since the kind set is fixed and exhaustive). -/
inductive FilterKind where
  | noop
  | gzip
  | zstd
  | lz4
  | rle
  | bzip2
  | double_delta
  | bit_width_reduction
  | bitshuffle
  | byteshuffle
  | positive_delta
deriving DecidableEq, Repr

/-- Modelled from the spec: whether a kind is one of the five compression
(codec) filters GZIP, ZSTD, LZ4, RLE, BZIP2. -/
def FilterKind.isCompression : FilterKind → Bool
  | .gzip | .zstd | .lz4 | .rle | .bzip2 => true
  | _ => false

/-- Modelled from the spec: a filter is its kind plus its validated typed
options; the only option consumed by forward/reverse is the compression
level of the codec filters. -/
structure FilterCfg where
  kind : FilterKind
  level : Int
deriving DecidableEq, Repr

/-- Modelled from the spec: the §7 error taxonomy — ConfigurationError,
EncodingError, DecodingError, CodecError. -/
inductive FErr where
  | configuration
  | encoding
  | decoding
  | codec
deriving DecidableEq, Repr

/-- Modelled from the spec: per-filter auxiliary metadata stored in a chunk's
metadata block — nothing for size-preserving filters and codecs, the first
raw value(s) for the delta filters, and the bit width / minimum / element
count for BIT_WIDTH_REDUCTION (enough auxiliary state to run the reverse
transform without external context, §3). -/
inductive FMeta where
  | mnone
  | mvals (vals : List Nat)
  | mbw (bw minv nvals : Nat)
deriving DecidableEq, Repr

/-- Modelled from the spec: an external compression codec adapter (the
underlying libraries are external collaborators): compression at a level,
and decompression which may fail with a codec error on a corrupt stream. -/
structure CodecImpl where
  comp : Int → List Byte → List Byte
  decomp : List Byte → Except FErr (List Byte)

/-- Modelled from the spec: a codec environment is correct when
decompression exactly inverts compression at every level. -/
def GoodEnv (env : FilterKind → CodecImpl) : Prop :=
  ∀ k : FilterKind, ∀ lvl : Int, ∀ x : List Byte,
    (env k).decomp ((env k).comp lvl x) = .ok x

/-- Modelled from the spec: the trivial (identity) codec environment, used
to instantiate the abstract codec adapters at concrete inputs. -/
def idEnv : FilterKind → CodecImpl :=
  fun _ => ⟨fun _ x => x, fun y => .ok y⟩

theorem idEnv_good : GoodEnv idEnv := fun _ _ _ => rfl

/-- Modelled from the spec §4.1: one filter's forward pass
`forward(input_chunk) -> (output_bytes, filter_metadata)` on a chunk, where
`w` is the tile's element width in bytes.  Shuffle, delta and bit-width
filters require the chunk length to be a multiple of the element width and
otherwise fail with an encoding error; POSITIVE_DELTA additionally fails on
a negative difference. -/
def fwdFilter (env : FilterKind → CodecImpl) (w : Nat) (cfg : FilterCfg)
    (x : List Byte) : Except FErr (List Byte × FMeta) :=
  match cfg.kind with
  | .noop => .ok (x, .mnone)
  | .gzip => .ok ((env .gzip).comp cfg.level x, .mnone)
  | .zstd => .ok ((env .zstd).comp cfg.level x, .mnone)
  | .lz4 => .ok ((env .lz4).comp cfg.level x, .mnone)
  | .rle => .ok ((env .rle).comp cfg.level x, .mnone)
  | .bzip2 => .ok ((env .bzip2).comp cfg.level x, .mnone)
  | .byteshuffle =>
    if w = 0 ∨ x.length % w ≠ 0 then .error .encoding
    else .ok (shuffleFwd w 0 x, .mnone)
  | .bitshuffle =>
    if w = 0 ∨ x.length % w ≠ 0 then .error .encoding
    else .ok (packBytes (shuffleFwd (8 * w) false (unpackBytes x)), .mnone)
  | .double_delta =>
    if w = 0 ∨ x.length % w ≠ 0 then .error .encoding
    else
      let M := 256 ^ w
      let vs := decodeVals w x
      let d := pairDiffs M (vs.headD 0) (vs.drop 1)
      let dd := pairDiffs M (d.headD 0) (d.drop 1)
      .ok (encodeVals w dd, .mvals (vs.take 2))
  | .positive_delta =>
    if w = 0 ∨ x.length % w ≠ 0 then .error .encoding
    else
      match decodeVals w x with
      | [] => .ok ([], .mvals [])
      | v0 :: rest =>
        match posDiffs v0 rest with
        | none => .error .encoding
        | some ds => .ok (encodeVals w ds, .mvals [v0])
  | .bit_width_reduction =>
    if w = 0 ∨ x.length % w ≠ 0 then .error .encoding
    else
      let vs := decodeVals w x
      let m := minA vs
      let b := Nat.size (maxA (vs.map (fun v => v - m)))
      let bits := vs.flatMap (fun v => natToBits b (v - m))
      let padded := bits ++ List.replicate ((8 - bits.length % 8) % 8) false
      .ok (packBytes padded, .mbw b m vs.length)

/-- Modelled from the spec §4.1: one filter's reverse pass
`reverse(input_bytes, filter_metadata) -> output_chunk`, the exact inverse
of the forward pass; inconsistent metadata yields a decoding error. -/
def revFilter (env : FilterKind → CodecImpl) (w : Nat) (cfg : FilterCfg)
    (y : List Byte) (md : FMeta) : Except FErr (List Byte) :=
  match cfg.kind, md with
  | .noop, .mnone => .ok y
  | .gzip, .mnone => (env .gzip).decomp y
  | .zstd, .mnone => (env .zstd).decomp y
  | .lz4, .mnone => (env .lz4).decomp y
  | .rle, .mnone => (env .rle).decomp y
  | .bzip2, .mnone => (env .bzip2).decomp y
  | .byteshuffle, .mnone =>
    if w = 0 ∨ y.length % w ≠ 0 then .error .decoding
    else .ok (shuffleRev w 0 y)
  | .bitshuffle, .mnone =>
    if w = 0 ∨ y.length % w ≠ 0 then .error .decoding
    else .ok (packBytes (shuffleRev (8 * w) false (unpackBytes y)))
  | .double_delta, .mvals mdv =>
    if w = 0 ∨ y.length % w ≠ 0 then .error .decoding
    else
      let M := 256 ^ w
      let dd := decodeVals w y
      match mdv with
      | [] => if y.isEmpty then .ok [] else .error .decoding
      | [v0] => if y.isEmpty then .ok (encodeVals w [v0]) else .error .decoding
      | [v0, v1] =>
        let d1 := (M + v1 - v0) % M
        let d := d1 :: pairSums M d1 dd
        .ok (encodeVals w (v0 :: pairSums M v0 d))
      | _ => .error .decoding
  | .positive_delta, .mvals mdv =>
    if w = 0 ∨ y.length % w ≠ 0 then .error .decoding
    else
      match mdv with
      | [] => if y.isEmpty then .ok [] else .error .decoding
      | [v0] => .ok (encodeVals w (v0 :: posSums v0 (decodeVals w y)))
      | _ => .error .decoding
  | .bit_width_reduction, .mbw b m n =>
    if b = 0 then .ok (encodeVals w (List.replicate n m))
    else
      let bits := unpackBytes y
      .ok (encodeVals w
        ((chunksOf b (bits.take (n * b))).map (fun c => m + bitsToNat c)))
  | _, _ => .error .decoding

theorem packBytes_length_of_dvd (l : List Bool) (h : 8 ∣ l.length) :
    (packBytes l).length = l.length / 8 := by
  have hu := unpackBytes_packBytes l.length l le_rfl h
  have h2 := unpackBytes_length (packBytes l)
  rw [hu] at h2
  omega

/-- BYTESHUFFLE round trip: the reverse shuffle undoes an accepted forward
shuffle; no codec is involved. -/
theorem revFilter_fwd_byteshuffle (env : FilterKind → CodecImpl) (w : Nat)
    (lvl : Int) (x y : List Byte) (md : FMeta)
    (h : fwdFilter env w ⟨FilterKind.byteshuffle, lvl⟩ x = .ok (y, md)) :
    revFilter env w ⟨FilterKind.byteshuffle, lvl⟩ y md = .ok x := by
  simp only [fwdFilter] at h
  split at h
  · exact Except.noConfusion h
  · rename_i hcond
    push_neg at hcond
    obtain ⟨hw0, ha⟩ := hcond
    have hw : 0 < w := Nat.pos_of_ne_zero hw0
    have hdvd : w ∣ x.length := Nat.dvd_of_mod_eq_zero ha
    simp only [Except.ok.injEq, Prod.mk.injEq] at h
    obtain ⟨rfl, rfl⟩ := h
    simp only [revFilter]
    rw [if_neg (by rw [shuffleFwd_length]; push_neg; exact ⟨hw0, ha⟩)]
    rw [shuffleRev_shuffleFwd w hw 0 x hdvd]

/-- BITSHUFFLE round trip: unpack to bits, shuffle back, and repack undoes
an accepted forward bit shuffle; no codec is involved. -/
theorem revFilter_fwd_bitshuffle (env : FilterKind → CodecImpl) (w : Nat)
    (lvl : Int) (x y : List Byte) (md : FMeta)
    (h : fwdFilter env w ⟨FilterKind.bitshuffle, lvl⟩ x = .ok (y, md)) :
    revFilter env w ⟨FilterKind.bitshuffle, lvl⟩ y md = .ok x := by
  simp only [fwdFilter] at h
  split at h
  · exact Except.noConfusion h
  · rename_i hcond
    push_neg at hcond
    obtain ⟨hw0, ha⟩ := hcond
    have hw : 0 < w := Nat.pos_of_ne_zero hw0
    have hdvd : w ∣ x.length := Nat.dvd_of_mod_eq_zero ha
    simp only [Except.ok.injEq, Prod.mk.injEq] at h
    obtain ⟨rfl, rfl⟩ := h
    have hbl : (shuffleFwd (8 * w) false (unpackBytes x)).length =
        8 * x.length := by
      rw [shuffleFwd_length, unpackBytes_length]
    have hbd : (8 : Nat) ∣ (shuffleFwd (8 * w) false (unpackBytes x)).length := by
      rw [hbl]
      exact Dvd.intro x.length rfl
    have hyl : (packBytes (shuffleFwd (8 * w) false (unpackBytes x))).length
        = x.length := by
      rw [packBytes_length_of_dvd _ hbd, hbl]
      omega
    simp only [revFilter]
    rw [if_neg (by rw [hyl]; push_neg; exact ⟨hw0, ha⟩)]
    rw [unpackBytes_packBytes (shuffleFwd (8 * w) false (unpackBytes x)).length
      _ le_rfl hbd]
    rw [shuffleRev_shuffleFwd (8 * w) (by omega) false (unpackBytes x)
      (by rw [unpackBytes_length]; exact Nat.mul_dvd_mul_left 8 hdvd)]
    rw [packBytes_unpackBytes]

/-- Per-filter round trip (spec §4.1): for every filter kind and every
option set, whenever the forward pass accepts an input chunk, the reverse
pass on its output and metadata reproduces the chunk exactly. -/
theorem revFilter_fwdFilter (env : FilterKind → CodecImpl)
    (Henv : GoodEnv env) (w : Nat) (cfg : FilterCfg) (x y : List Byte)
    (md : FMeta) (h : fwdFilter env w cfg x = .ok (y, md)) :
    revFilter env w cfg y md = .ok x := by
  obtain ⟨k, lvl⟩ := cfg
  cases k
  case noop =>
    simp only [fwdFilter, Except.ok.injEq, Prod.mk.injEq] at h
    obtain ⟨rfl, rfl⟩ := h
    rfl
  case gzip =>
    simp only [fwdFilter, Except.ok.injEq, Prod.mk.injEq] at h
    obtain ⟨rfl, rfl⟩ := h
    exact Henv .gzip lvl x
  case zstd =>
    simp only [fwdFilter, Except.ok.injEq, Prod.mk.injEq] at h
    obtain ⟨rfl, rfl⟩ := h
    exact Henv .zstd lvl x
  case lz4 =>
    simp only [fwdFilter, Except.ok.injEq, Prod.mk.injEq] at h
    obtain ⟨rfl, rfl⟩ := h
    exact Henv .lz4 lvl x
  case rle =>
    simp only [fwdFilter, Except.ok.injEq, Prod.mk.injEq] at h
    obtain ⟨rfl, rfl⟩ := h
    exact Henv .rle lvl x
  case bzip2 =>
    simp only [fwdFilter, Except.ok.injEq, Prod.mk.injEq] at h
    obtain ⟨rfl, rfl⟩ := h
    exact Henv .bzip2 lvl x
  case byteshuffle =>
    exact revFilter_fwd_byteshuffle env w lvl x y md h
  case bitshuffle =>
    exact revFilter_fwd_bitshuffle env w lvl x y md h
  case double_delta =>
    simp only [fwdFilter] at h
    split at h
    · exact Except.noConfusion h
    · rename_i hcond
      push_neg at hcond
      obtain ⟨hw0, ha⟩ := hcond
      have hw : 0 < w := Nat.pos_of_ne_zero hw0
      have hM : 0 < 256 ^ w := pow_pos (by norm_num) w
      have hdvd : w ∣ x.length := Nat.dvd_of_mod_eq_zero ha
      have hex : encodeVals w (decodeVals w x) = x :=
        encodeVals_decodeVals w hw x hdvd
      have hlts : ∀ v ∈ decodeVals w x, v < 256 ^ w :=
        decodeVals_lt w hw x hdvd
      simp only [Except.ok.injEq, Prod.mk.injEq] at h
      obtain ⟨rfl, rfl⟩ := h
      revert hex hlts
      generalize decodeVals w x = vs0
      intro hex hlts
      rcases vs0 with _ | ⟨v0, _ | ⟨v1, rest⟩⟩
      · simp only [List.headD_nil, List.drop_nil, pairDiffs, List.take_nil]
        simp only [revFilter, encodeVals, List.flatMap_nil]
        rw [if_neg (by push_neg; exact ⟨hw0, by simp⟩)]
        simp only [List.isEmpty_nil, if_true]
        rw [← hex]
        rfl
      · simp only [List.headD_cons, List.drop_succ_cons, List.drop_nil,
          pairDiffs, List.headD_nil, List.take_succ_cons, List.take_nil]
        simp only [revFilter, encodeVals, List.flatMap_nil]
        rw [if_neg (by push_neg; exact ⟨hw0, by simp⟩)]
        simp only [List.isEmpty_nil, if_true]
        rw [← hex]
        rfl
      · have hv0 : v0 < 256 ^ w := hlts v0 (by simp)
        have hv1 : v1 < 256 ^ w := hlts v1 (by simp)
        have hrest : ∀ v ∈ v1 :: rest, v < 256 ^ w := by
          intro v hv
          exact hlts v (List.mem_cons_of_mem v0 hv)
        simp only [List.headD_cons, List.drop_succ_cons, List.drop_zero,
          List.take_succ_cons, List.take_zero, pairDiffs]
        simp only [revFilter]
        rw [if_neg (by
          push_neg
          refine ⟨hw0, ?_⟩
          rw [encodeVals_length]
          exact Nat.mul_mod_right w _)]
        have hdd : decodeVals w (encodeVals w
            (pairDiffs (256 ^ w) ((256 ^ w + v1 - v0) % 256 ^ w)
              (pairDiffs (256 ^ w) v1 rest))) =
            pairDiffs (256 ^ w) ((256 ^ w + v1 - v0) % 256 ^ w)
              (pairDiffs (256 ^ w) v1 rest) := by
          apply decodeVals_encodeVals w hw
          exact pairDiffs_lt (256 ^ w) hM _ _
        simp only [hdd]
        rw [pairSums_pairDiffs (256 ^ w) hM (pairDiffs (256 ^ w) v1 rest)
          ((256 ^ w + v1 - v0) % 256 ^ w) (Nat.mod_lt _ hM)
          (pairDiffs_lt (256 ^ w) hM v1 rest)]
        rw [show ((256 ^ w + v1 - v0) % 256 ^ w :: pairDiffs (256 ^ w) v1 rest)
            = pairDiffs (256 ^ w) v0 (v1 :: rest) from rfl]
        rw [pairSums_pairDiffs (256 ^ w) hM (v1 :: rest) v0 hv0 hrest]
        rw [hex]
  case positive_delta =>
    simp only [fwdFilter] at h
    split at h
    · exact Except.noConfusion h
    · rename_i hcond
      push_neg at hcond
      obtain ⟨hw0, ha⟩ := hcond
      have hw : 0 < w := Nat.pos_of_ne_zero hw0
      have hdvd : w ∣ x.length := Nat.dvd_of_mod_eq_zero ha
      have hex : encodeVals w (decodeVals w x) = x :=
        encodeVals_decodeVals w hw x hdvd
      have hlts : ∀ v ∈ decodeVals w x, v < 256 ^ w :=
        decodeVals_lt w hw x hdvd
      revert hex hlts h
      generalize decodeVals w x = vs0
      intro h hex hlts
      rcases vs0 with _ | ⟨v0, rest⟩
      · simp only [Except.ok.injEq, Prod.mk.injEq] at h
        obtain ⟨rfl, rfl⟩ := h
        simp only [revFilter]
        rw [if_neg (by push_neg; exact ⟨hw0, by simp⟩)]
        simp only [List.isEmpty_nil, if_true]
        rw [← hex]
        rfl
      · have h2 : (match posDiffs v0 rest with
            | none => (Except.error FErr.encoding :
                Except FErr (List Byte × FMeta))
            | some ds => Except.ok (encodeVals w ds, FMeta.mvals [v0])) =
            Except.ok (y, md) := h
        clear h
        cases hds : posDiffs v0 rest with
        | none =>
          rw [hds] at h2
          exact Except.noConfusion h2
        | some ds =>
          rw [hds] at h2
          simp only [Except.ok.injEq, Prod.mk.injEq] at h2
          obtain ⟨rfl, rfl⟩ := h2
          have hdsl : ∀ d ∈ ds, d < 256 ^ w := by
            apply posDiffs_lt (256 ^ w) rest v0 ds hds
            intro v hv
            exact hlts v (List.mem_cons_of_mem v0 hv)
          simp only [revFilter]
          rw [if_neg (by
            push_neg
            refine ⟨hw0, ?_⟩
            rw [encodeVals_length]
            exact Nat.mul_mod_right w _)]
          rw [decodeVals_encodeVals w hw ds hdsl]
          rw [posSums_posDiffs rest v0 ds hds]
          rw [hex]
  case bit_width_reduction =>
    simp only [fwdFilter] at h
    split at h
    · exact Except.noConfusion h
    · rename_i hcond
      push_neg at hcond
      obtain ⟨hw0, ha⟩ := hcond
      have hw : 0 < w := Nat.pos_of_ne_zero hw0
      have hdvd : w ∣ x.length := Nat.dvd_of_mod_eq_zero ha
      have hex : encodeVals w (decodeVals w x) = x :=
        encodeVals_decodeVals w hw x hdvd
      simp only [Except.ok.injEq, Prod.mk.injEq] at h
      obtain ⟨rfl, rfl⟩ := h
      by_cases hb : Nat.size (maxA ((decodeVals w x).map
          (fun v => v - minA (decodeVals w x)))) = 0
      · simp only [revFilter, hb, if_true]
        have hmax0 : maxA ((decodeVals w x).map
            (fun v => v - minA (decodeVals w x))) = 0 := Nat.size_eq_zero.mp hb
        have hall : ∀ v ∈ decodeVals w x, v = minA (decodeVals w x) := by
          intro v hv
          have h1 := minA_le (decodeVals w x) v hv
          have h2 : v - minA (decodeVals w x) ≤ 0 := by
            rw [← hmax0]
            exact le_maxA _ _ (List.mem_map_of_mem _ hv)
          omega
        have hrep : List.replicate (decodeVals w x).length
            (minA (decodeVals w x)) = decodeVals w x :=
          (List.eq_replicate_of_mem hall).symm
        rw [hrep, hex]
      · simp only [revFilter, hb, if_false]
        set vs := decodeVals w x with hvs
        set m := minA vs with hm
        set b := Nat.size (maxA (vs.map (fun v => v - m))) with hbdef
        have hb0 : 0 < b := Nat.pos_of_ne_zero hb
        have hbits_len : (vs.flatMap (fun v => natToBits b (v - m))).length
            = b * vs.length :=
          flatMap_length_const b _ (fun v => natToBits_length b (v - m)) vs
        have hpad_dvd : (8 : Nat) ∣
            ((vs.flatMap (fun v => natToBits b (v - m))).length +
              ((8 - (vs.flatMap (fun v => natToBits b (v - m))).length % 8) % 8)) := by
          omega
        have hunp : unpackBytes (packBytes
            (vs.flatMap (fun v => natToBits b (v - m)) ++
              List.replicate ((8 - (vs.flatMap
                (fun v => natToBits b (v - m))).length % 8) % 8) false)) =
            vs.flatMap (fun v => natToBits b (v - m)) ++
              List.replicate ((8 - (vs.flatMap
                (fun v => natToBits b (v - m))).length % 8) % 8) false := by
          apply unpackBytes_packBytes _ _ le_rfl
          rw [List.length_append, List.length_replicate]
          exact hpad_dvd
        rw [hunp]
        have htake : (vs.flatMap (fun v => natToBits b (v - m)) ++
            List.replicate ((8 - (vs.flatMap
              (fun v => natToBits b (v - m))).length % 8) % 8) false).take
            (vs.length * b) = vs.flatMap (fun v => natToBits b (v - m)) := by
          rw [List.take_append_of_le_length (by rw [hbits_len]; ring_nf; omega)]
          rw [show vs.length * b = (vs.flatMap
            (fun v => natToBits b (v - m))).length by rw [hbits_len]; ring]
          exact List.take_length _
        rw [htake]
        rw [chunksOf_flatMap b hb0 _ (fun v => natToBits_length b (v - m)) vs]
        rw [List.map_map]
        have hmap : vs.map ((fun c => m + bitsToNat c) ∘
            (fun v => natToBits b (v - m))) = vs := by
          have h1 : vs.map ((fun c => m + bitsToNat c) ∘
              (fun v => natToBits b (v - m))) = vs.map id := by
            apply List.map_congr_left
            intro v hv
            simp only [Function.comp_apply, id_eq]
            have hvm : v - m < 2 ^ b := by
              have hle : v - m ≤ maxA (vs.map (fun v => v - m)) :=
                le_maxA _ _ (List.mem_map_of_mem _ hv)
              have h2 := Nat.lt_size_self (maxA (vs.map (fun v => v - m)))
              rw [← hbdef] at h2
              omega
            rw [bitsToNat_natToBits b (v - m) hvm]
            have hmle := minA_le vs v hv
            rw [← hm] at hmle
            omega
          rw [h1, List.map_id]
        rw [hmap, hex]

/-! ## FilterPipeline and FilteredBuffer -/

/-- Modelled from the spec §3: one persisted chunk record of a
FilteredBuffer: original size, filtered size, per-filter metadata in
pipeline order, and the payload bytes of the final stage. -/
structure ChunkRecord where
  original_size : Nat
  filtered_size : Nat
  metadata : List FMeta
  payload : List Byte
deriving DecidableEq, Repr

/-- Modelled from the spec §3: the persisted/transmitted representation — a
sequence of chunk records. -/
abbrev FilteredBuffer := List ChunkRecord

/-- Modelled from the spec §4.3: forward application of the filters of a
pipeline, strictly in list order, to one chunk; each stage's output becomes
the next stage's input, and each stage's metadata is accumulated in the same
order.  Any single filter error aborts the whole call. -/
def chunkForward (env : FilterKind → CodecImpl) (w : Nat) :
    List FilterCfg → List Byte → Except FErr (List Byte × List FMeta)
  | [], x => .ok (x, [])
  | cfg :: rest, x =>
    match fwdFilter env w cfg x with
    | .error e => .error e
    | .ok (y, md) =>
      match chunkForward env w rest y with
      | .error e => .error e
      | .ok (z, mds) => .ok (z, md :: mds)

/-- Modelled from the spec §4.3: reverse application of the filters of a
pipeline in reverse list order to one chunk, each stage consuming the
metadata block emitted by the corresponding forward stage; a metadata-count
mismatch is a decoding error. -/
def chunkReverse (env : FilterKind → CodecImpl) (w : Nat) :
    List FilterCfg → List FMeta → List Byte → Except FErr (List Byte)
  | [], [], y => .ok y
  | cfg :: rest, md :: mds, y =>
    match chunkReverse env w rest mds y with
    | .error e => .error e
    | .ok z => revFilter env w cfg z md
  | _, _, _ => .error .decoding

/-- Modelled from the spec §4.2: the effective chunk size — the configured
maximum chunk size rounded down to the nearest multiple of the tile's
element size, except when the buffer element width exceeds the maximum (then
the size is used as is, keeping the step positive). -/
def chunkStep (w n : Nat) : Nat :=
  if 0 < w ∧ w ≤ n then n / w * w else n

/-- Modelled from the spec §4.2: `split(buffer, max_chunk_size)` with
element-aligned boundaries. -/
def splitTile (w n : Nat) (b : List Byte) : List (List Byte) :=
  chunksOf (chunkStep w n) b

theorem chunkStep_pos (w n : Nat) (hn : 0 < n) : 0 < chunkStep w n := by
  unfold chunkStep
  split
  · rename_i hc
    obtain ⟨hw, hwn⟩ := hc
    have h1 : 1 ≤ n / w := (Nat.one_le_div_iff hw).mpr hwn
    calc 0 < 1 * w := by omega
      _ ≤ n / w * w := Nat.mul_le_mul_right w h1
  · exact hn

/-- Modelled from the spec §4.2: non-final chunk boundaries are multiples of
the element size whenever the element size does not exceed the configured
maximum chunk size. -/
theorem chunkStep_dvd (w n : Nat) (hw : 0 < w) (hwn : w ≤ n) :
    w ∣ chunkStep w n := by
  unfold chunkStep
  rw [if_pos ⟨hw, hwn⟩]
  exact dvd_mul_left w (n / w)

/-- Modelled from the spec §4.3: `run_forward(tile_buffer) -> FilteredBuffer`
on an already split chunk sequence: filter each chunk and assemble one chunk
record per chunk. -/
def forwardChunks (env : FilterKind → CodecImpl) (w : Nat)
    (cfgs : List FilterCfg) : List (List Byte) → Except FErr FilteredBuffer
  | [] => .ok []
  | c :: cs =>
    match chunkForward env w cfgs c with
    | .error e => .error e
    | .ok (p, mds) =>
      match forwardChunks env w cfgs cs with
      | .error e => .error e
      | .ok rs => .ok (⟨c.length, p.length, mds, p⟩ :: rs)

/-- Modelled from the spec §4.3: the pipeline's forward pass — split the
tile buffer into chunks, filter each chunk in order, and assemble the chunk
records into the FilteredBuffer. -/
def runForward (env : FilterKind → CodecImpl) (w : Nat)
    (cfgs : List FilterCfg) (maxChunk : Nat) (b : List Byte) :
    Except FErr FilteredBuffer :=
  forwardChunks env w cfgs (splitTile w maxChunk b)

/-- Modelled from the spec §4.3: reverse every chunk record (filters in
reverse order), require the final reverse stage to reproduce exactly
`original_size` bytes (a mismatch is a decoding error), and concatenate. -/
def reverseChunks (env : FilterKind → CodecImpl) (w : Nat)
    (cfgs : List FilterCfg) : FilteredBuffer → Except FErr (List Byte)
  | [] => .ok []
  | r :: rs =>
    match chunkReverse env w cfgs r.metadata r.payload with
    | .error e => .error e
    | .ok c =>
      if c.length = r.original_size then
        match reverseChunks env w cfgs rs with
        | .error e => .error e
        | .ok b => .ok (c ++ b)
      else .error .decoding

/-- Modelled from the spec §4.3: `run_reverse(FilteredBuffer) ->
tile_buffer`. -/
def runReverse (env : FilterKind → CodecImpl) (w : Nat)
    (cfgs : List FilterCfg) (fb : FilteredBuffer) : Except FErr (List Byte) :=
  reverseChunks env w cfgs fb

/-- Chunk-level round trip: reversing the stages in reverse order undoes the
forward stages applied in order. -/
theorem chunkReverse_chunkForward (env : FilterKind → CodecImpl)
    (Henv : GoodEnv env) (w : Nat) (cfgs : List FilterCfg) :
    ∀ x z : List Byte, ∀ mds : List FMeta,
      chunkForward env w cfgs x = .ok (z, mds) →
      chunkReverse env w cfgs mds z = .ok x := by
  induction cfgs with
  | nil =>
    intro x z mds h
    simp only [chunkForward, Except.ok.injEq, Prod.mk.injEq] at h
    obtain ⟨rfl, rfl⟩ := h
    rfl
  | cons cfg rest ih =>
    intro x z mds h
    cases h1 : fwdFilter env w cfg x with
    | error e =>
      simp only [chunkForward, h1] at h
      exact Except.noConfusion h
    | ok p =>
      obtain ⟨y, md⟩ := p
      cases h2 : chunkForward env w rest y with
      | error e =>
        simp only [chunkForward, h1, h2] at h
        exact Except.noConfusion h
      | ok q =>
        obtain ⟨z1, mds1⟩ := q
        simp only [chunkForward, h1, h2, Except.ok.injEq, Prod.mk.injEq] at h
        obtain ⟨rfl, rfl⟩ := h
        simp only [chunkReverse]
        rw [ih y z1 mds1 h2]
        exact revFilter_fwdFilter env Henv w cfg x y md h1

/-- Buffer-level round trip over an arbitrary chunk decomposition. -/
theorem reverseChunks_forwardChunks (env : FilterKind → CodecImpl)
    (Henv : GoodEnv env) (w : Nat) (cfgs : List FilterCfg) :
    ∀ cs : List (List Byte), ∀ fb : FilteredBuffer,
      forwardChunks env w cfgs cs = .ok fb →
      reverseChunks env w cfgs fb = .ok cs.flatten := by
  intro cs
  induction cs with
  | nil =>
    intro fb h
    simp only [forwardChunks, Except.ok.injEq] at h
    rw [← h]
    rfl
  | cons c cs1 ih =>
    intro fb h
    cases h1 : chunkForward env w cfgs c with
    | error e =>
      simp only [forwardChunks, h1] at h
      exact Except.noConfusion h
    | ok p =>
      obtain ⟨pl, mds⟩ := p
      cases h2 : forwardChunks env w cfgs cs1 with
      | error e =>
        simp only [forwardChunks, h1, h2] at h
        exact Except.noConfusion h
      | ok rs =>
        simp only [forwardChunks, h1, h2, Except.ok.injEq] at h
        rw [← h]
        have h3 := chunkReverse_chunkForward env Henv w cfgs c pl mds h1
        have h4 := ih rs h2
        simp only [reverseChunks, h3, h4, List.flatten_cons, if_true,
          eq_self_iff_true]

/-- Pipeline-level round trip: `run_reverse(run_forward(x)) == x` whenever
the forward pass succeeds. -/
theorem runReverse_runForward (env : FilterKind → CodecImpl)
    (Henv : GoodEnv env) (w : Nat) (cfgs : List FilterCfg) (maxChunk : Nat)
    (hmc : 0 < maxChunk) (b : List Byte) (fb : FilteredBuffer)
    (h : runForward env w cfgs maxChunk b = .ok fb) :
    runReverse env w cfgs fb = .ok b := by
  unfold runForward at h
  unfold runReverse
  have h1 := reverseChunks_forwardChunks env Henv w cfgs
    (splitTile w maxChunk b) fb h
  rw [h1]
  unfold splitTile
  rw [chunksOf_flatten (chunkStep w maxChunk) (chunkStep_pos w maxChunk hmc) b]

/-! ## Filter options (C++ API `Filter::set_option` / `Filter::get_option`;
the underlying C implementation is not among the provided sources) -/

/-- Modelled from the spec: the typed option keys of
`tiledb_filter_option_t` — the compression level of the codec filters and
the max-window options of the window-based encodings. -/
inductive FilterOption where
  | COMPRESSION_LEVEL
  | BIT_WIDTH_MAX_WINDOW
  | POSITIVE_DELTA_MAX_WINDOW
deriving DecidableEq, Repr

/-- Modelled from the spec §3: which option keys a filter kind recognizes
(options are validated against `kind`). -/
def recognizesOption : FilterKind → FilterOption → Bool
  | k, .COMPRESSION_LEVEL => k.isCompression
  | .bit_width_reduction, .BIT_WIDTH_MAX_WINDOW => true
  | .positive_delta, .POSITIVE_DELTA_MAX_WINDOW => true
  | _, _ => false

/-- Modelled from the spec §9: the documented per-kind option defaults, a
pure function from kind to constant (compression level −1 denotes the
codec's default level, as documented in the `Filter::get_option` example of
`filter.h`). -/
def optionDefault : FilterKind → FilterOption → Int
  | _, .COMPRESSION_LEVEL => -1
  | _, .BIT_WIDTH_MAX_WINDOW => 256
  | _, .POSITIVE_DELTA_MAX_WINDOW => 256

/-- Modelled from the spec §3: a filter's mutable state — its immutable
kind and its option mapping. -/
structure FilterState where
  kind : FilterKind
  opts : FilterOption → Option Int

/-- Modelled from the spec: a freshly created filter has no option set. -/
def mkFilter (k : FilterKind) : FilterState := ⟨k, fun _ => none⟩

/-- Embedded from `Filter::set_option` (filter.h): setting an option not
valid for the filter's kind fails (surfaced as an error status at set time);
the returned state is the possibly-updated filter. -/
def FilterState.set_option (f : FilterState) (o : FilterOption) (v : Int) :
    Except FErr Unit × FilterState :=
  if recognizesOption f.kind o then
    (.ok (), ⟨f.kind, fun o2 => if o2 = o then some v else f.opts o2⟩)
  else (.error .configuration, f)

/-- Embedded from `Filter::get_option` (filter.h): reading an option writes
the stored value, or the kind's documented default when unset; the filter
state is returned unchanged. -/
def FilterState.get_option (f : FilterState) (o : FilterOption) :
    Except FErr Int × FilterState :=
  if recognizesOption f.kind o then
    (.ok ((f.opts o).getD (optionDefault f.kind o)), f)
  else (.error .configuration, f)

/-! ## `Filter::to_str` (embedded from filter.h) -/

/-- Modelled from the spec: the numeric values of the C enum
`tiledb_filter_type_t` (its defining header is not among the provided
sources); the eleven enumerators in declaration order. -/
def TILEDB_FILTER_NONE : Int := 0

def TILEDB_FILTER_GZIP : Int := 1

def TILEDB_FILTER_ZSTD : Int := 2

def TILEDB_FILTER_LZ4 : Int := 3

def TILEDB_FILTER_RLE : Int := 4

def TILEDB_FILTER_BZIP2 : Int := 5

def TILEDB_FILTER_DOUBLE_DELTA : Int := 6

def TILEDB_FILTER_BIT_WIDTH_REDUCTION : Int := 7

def TILEDB_FILTER_BITSHUFFLE : Int := 8

def TILEDB_FILTER_BYTESHUFFLE : Int := 9

def TILEDB_FILTER_POSITIVE_DELTA : Int := 10

/-- Embedded from `Filter::to_str` (filter.h lines 175–201): the switch over
the filter type with a final `return ""` fallthrough for any other value. -/
def Filter.to_str (t : Int) : String :=
  if t = TILEDB_FILTER_NONE then "NOOP"
  else if t = TILEDB_FILTER_GZIP then "GZIP"
  else if t = TILEDB_FILTER_ZSTD then "ZSTD"
  else if t = TILEDB_FILTER_LZ4 then "LZ4"
  else if t = TILEDB_FILTER_RLE then "RLE"
  else if t = TILEDB_FILTER_BZIP2 then "BZIP2"
  else if t = TILEDB_FILTER_DOUBLE_DELTA then "DOUBLE_DELTA"
  else if t = TILEDB_FILTER_BIT_WIDTH_REDUCTION then "BIT_WIDTH_REDUCTION"
  else if t = TILEDB_FILTER_BITSHUFFLE then "BITSHUFFLE"
  else if t = TILEDB_FILTER_BYTESHUFFLE then "BYTESHUFFLE"
  else if t = TILEDB_FILTER_POSITIVE_DELTA then "POSITIVE_DELTA"
  else ""

/-! ## Query serialization boundary (embedded from query.cc) -/

/-- Embedded from `tiledb::sm::SerializationType` as consumed by the
switches of query.cc: the two known encodings plus any other enum value
(handled by the `default` case). -/
inductive SerializationType where
  | JSON
  | CAPNP
  | UNKNOWN (code : Nat)
deriving DecidableEq, Repr

/-- Embedded from `tiledb::sm::Status`: success or a message-carrying error
status. -/
inductive Status where
  | ok
  | error (msg : String)
deriving DecidableEq, Repr

/-- Modelled from the spec: the outcomes of the external Cap'n-Proto / query
collaborators used by query.cc — `query->capnp` returns a Status, and each
encode/decode step either yields a value or throws an exception carrying a
message (kj::Exception / std::exception, both caught). -/
structure QueryEnv where
  capnpStatus : Status
  jsonEncode : Except String (List Byte)
  binEncode : Except String (List Byte)
  jsonDecode : Except String Status
  binDecode : Except String Status

/-- Embedded from `query_serialize` (query.cc lines 44–93): build the capnp
message, encode per serialization type, return the serialized buffer and its
length; a non-JSON non-CAPNP type hits the `default` case; every thrown
exception is caught and mapped to an error status. -/
def query_serialize (q : QueryEnv) (t : SerializationType) :
    Status × Option (List Byte × Int) :=
  match q.capnpStatus with
  | .error m => (.error ("Could not serialize query: " ++ m), none)
  | .ok =>
    match t with
    | .JSON =>
      match q.jsonEncode with
      | .ok s => (.ok, some (s, (s.length : Int)))
      | .error e => (.error ("Error serializing query: " ++ e), none)
    | .CAPNP =>
      match q.binEncode with
      | .ok s => (.ok, some (s, (s.length : Int)))
      | .error e => (.error ("Error serializing query: " ++ e), none)
    | .UNKNOWN _ => (.error "Unknown serialization type passed", none)

/-- Embedded from `query_deserialize` (query.cc lines 95–137): decode per
serialization type and return `query->from_capnp`'s status; a non-JSON
non-CAPNP type hits the `default` case; every thrown exception is caught and
mapped to an error status. -/
def query_deserialize (q : QueryEnv) (t : SerializationType) : Status :=
  match t with
  | .JSON =>
    match q.jsonDecode with
    | .ok st => st
    | .error e => .error ("Error serializing query: " ++ e)
  | .CAPNP =>
    match q.binDecode with
    | .ok st => st
    | .error e => .error ("Error serializing query: " ++ e)
  | .UNKNOWN _ => .error "Unknown serialization type passed"

/-! ## `tiledb_generate_data` (embedded from tiledb_queries.cc) -/

/-- Observable effects of `tiledb_generate_data` on its collaborators:
reading the array schema from the storage manager and running the CSV or
binary generator. -/
inductive GDEvent where
  | getSchema
  | genCsv
  | genBin
deriving DecidableEq, Repr

/-- Modelled from the spec: the numeric value of the `TILEDB_EIARG` error
macro (its defining header is not among the provided sources); only its
being a fixed nonzero code distinct from collaborator return codes is relied
on. -/
def TILEDB_EIARG : Int := -15

/-- Embedded from `tiledb_generate_data` (tiledb_queries.cc lines 104–148):
reject a non-positive cell count before touching the storage manager, fetch
the schema (propagating its return code verbatim on failure), dispatch on
the file type with `TILEDB_EIARG` for unknown types, and propagate the
generator's return code.  The collaborators' return codes are inputs;
the returned event list records which collaborators were invoked, in
order. -/
def tiledb_generate_data (schemaRC csvRC binRC : Int) (filetype : String)
    (cell_num : Int) : Int × List GDEvent :=
  if cell_num ≤ 0 then (TILEDB_EIARG, [])
  else if schemaRC ≠ 0 then (schemaRC, [.getSchema])
  else if filetype = "csv" then
    (if csvRC ≠ 0 then csvRC else 0, [.getSchema, .genCsv])
  else if filetype = "bin" then
    (if binRC ≠ 0 then binRC else 0, [.getSchema, .genBin])
  else (TILEDB_EIARG, [.getSchema])

/-! ## Concrete NOOP scenario pieces -/

theorem chunksOf_replicate4 :
    chunksOf 1024 (List.replicate 4096 (0 : Byte)) =
      [List.replicate 1024 (0 : Byte), List.replicate 1024 (0 : Byte),
       List.replicate 1024 (0 : Byte), List.replicate 1024 (0 : Byte)] := by
  have hlen : (List.replicate 1024 (0 : Byte)).length = 1024 :=
    List.length_replicate 1024 0
  have h4 : List.replicate 4096 (0 : Byte) =
      List.replicate 1024 0 ++ List.replicate 3072 0 := by
    rw [← List.replicate_add]
  have h3 : List.replicate 3072 (0 : Byte) =
      List.replicate 1024 0 ++ List.replicate 2048 0 := by
    rw [← List.replicate_add]
  have h2 : List.replicate 2048 (0 : Byte) =
      List.replicate 1024 0 ++ List.replicate 1024 0 := by
    rw [← List.replicate_add]
  have hlast : chunksOf 1024 (List.replicate 1024 (0 : Byte)) =
      [List.replicate 1024 (0 : Byte)] := by
    conv_lhs => rw [← List.append_nil (List.replicate 1024 (0 : Byte))]
    rw [chunksOf_append 1024 (by norm_num) _ _ hlen, chunksOf_nil]
  rw [h4, chunksOf_append 1024 (by norm_num) _ _ hlen,
    h3, chunksOf_append 1024 (by norm_num) _ _ hlen,
    h2, chunksOf_append 1024 (by norm_num) _ _ hlen, hlast]

theorem chunkStep_1_1024 : chunkStep 1 1024 = 1024 := by
  norm_num [chunkStep]

theorem chunkForward_noop (c : List Byte) :
    chunkForward idEnv 1 [⟨FilterKind.noop, 0⟩] c = .ok (c, [FMeta.mnone]) :=
  rfl

theorem runForward_noop4096 :
    runForward idEnv 1 [⟨FilterKind.noop, 0⟩] 1024
      (List.replicate 4096 (0 : Byte)) =
    .ok (List.replicate 4
      ⟨1024, 1024, [FMeta.mnone], List.replicate 1024 (0 : Byte)⟩) := by
  unfold runForward splitTile
  rw [chunkStep_1_1024, chunksOf_replicate4]
  simp only [forwardChunks, chunkForward_noop, List.length_replicate]
  rfl

/-! ## Claim theorems -/

/-- C1: for every filter kind and every option set, and for every input
byte buffer (including empty, one-byte and non-element-aligned buffers,
wherever the forward pass does not reject them), the pipeline's reverse
pass undoes the forward pass, and per filter
`reverse(forward(x).output, forward(x).metadata) == x` — for any codec
environment whose external decompressors invert their compressors. -/
theorem C1_roundtrip (env : FilterKind → CodecImpl) (Henv : GoodEnv env)
    (w : Nat) (x : List Byte) :
    (∀ cfg : FilterCfg, ∀ y : List Byte, ∀ md : FMeta,
      fwdFilter env w cfg x = .ok (y, md) →
      revFilter env w cfg y md = .ok x) ∧
    (∀ cfgs : List FilterCfg, ∀ maxChunk : Nat, ∀ fb : FilteredBuffer,
      0 < maxChunk → runForward env w cfgs maxChunk x = .ok fb →
      runReverse env w cfgs fb = .ok x) :=
  ⟨fun cfg y md h => revFilter_fwdFilter env Henv w cfg x y md h,
   fun cfgs maxChunk fb hmc h =>
     runReverse_runForward env Henv w cfgs maxChunk hmc x fb h⟩

/-- Witness for C1 at a concrete one-byte buffer and NOOP pipeline. -/
theorem C1_roundtrip_witness :
    GoodEnv idEnv ∧
    fwdFilter idEnv 1 ⟨FilterKind.noop, 0⟩ [(5 : Byte)] =
      .ok ([(5 : Byte)], FMeta.mnone) ∧
    revFilter idEnv 1 ⟨FilterKind.noop, 0⟩ [(5 : Byte)] FMeta.mnone =
      .ok [(5 : Byte)] ∧
    (0 : Nat) < 16 ∧
    runForward idEnv 1 [⟨FilterKind.noop, 0⟩] 16 [(5 : Byte)] =
      .ok [⟨1, 1, [FMeta.mnone], [(5 : Byte)]⟩] ∧
    runReverse idEnv 1 [⟨FilterKind.noop, 0⟩]
      [⟨1, 1, [FMeta.mnone], [(5 : Byte)]⟩] = .ok [(5 : Byte)] :=
  ⟨idEnv_good, rfl,
   (C1_roundtrip idEnv idEnv_good 1 [(5 : Byte)]).1 ⟨FilterKind.noop, 0⟩ _ _
     rfl,
   by norm_num, rfl,
   (C1_roundtrip idEnv idEnv_good 1 [(5 : Byte)]).2 [⟨FilterKind.noop, 0⟩] 16
     _ (by norm_num) rfl⟩

/-- C2: joining the chunks produced by splitting reproduces the buffer for
every buffer and every positive maximum chunk size; every non-final chunk
has the effective chunk size, which is the maximum rounded down to a
multiple of the element size whenever the element size fits within the
maximum. -/
theorem C2_chunker (w n : Nat) (hw : 0 < w) (hn : 0 < n) (b : List Byte) :
    (splitTile w n b).flatten = b ∧
    (∀ c ∈ (splitTile w n b).dropLast, c.length = chunkStep w n) ∧
    (w ≤ n → chunkStep w n = n / w * w ∧ w ∣ chunkStep w n) := by
  refine ⟨?_, ?_, ?_⟩
  · exact chunksOf_flatten _ (chunkStep_pos w n hn) b
  · exact chunksOf_dropLast_length _ (chunkStep_pos w n hn) b
  · intro hwn
    constructor
    · unfold chunkStep
      rw [if_pos ⟨hw, hwn⟩]
    · exact chunkStep_dvd w n hw hwn

/-- Witness for C2 at a 9-byte buffer, element width 4, max chunk 10. -/
theorem C2_chunker_witness :
    (0 : Nat) < 4 ∧ (0 : Nat) < 10 ∧
    (splitTile 4 10 (List.replicate 9 (0 : Byte))).flatten =
      List.replicate 9 (0 : Byte) :=
  ⟨by norm_num, by norm_num,
   (C2_chunker 4 10 (by norm_num) (by norm_num) _).1⟩

/-- C3: the forward pass is deterministic — two runs with the same ordered
filter list, the same options, the same max chunk size, and identical input
bytes produce byte-identical FilteredBuffer output. -/
theorem C3_determinism (env : FilterKind → CodecImpl) (w : Nat)
    (cfgs1 cfgs2 : List FilterCfg) (n1 n2 : Nat) (x1 x2 : List Byte)
    (hc : cfgs1 = cfgs2) (hn : n1 = n2) (hx : x1 = x2) :
    runForward env w cfgs1 n1 x1 = runForward env w cfgs2 n2 x2 := by
  subst hc hn hx
  rfl

/-- Witness for C3 at a concrete pipeline and input. -/
theorem C3_determinism_witness :
    ([⟨FilterKind.noop, 0⟩] : List FilterCfg) = [⟨FilterKind.noop, 0⟩] ∧
    runForward idEnv 1 [⟨FilterKind.noop, 0⟩] 8 [(3 : Byte)] =
      runForward idEnv 1 [⟨FilterKind.noop, 0⟩] 8 [(3 : Byte)] :=
  ⟨rfl, C3_determinism idEnv 1 _ _ 8 8 _ _ rfl rfl rfl⟩

/-- C5: the shuffle filters fail with an encoding error on a chunk whose
length is not a multiple of the element width; on an accepted chunk the
reverse pass is the exact inverse permutation of the forward pass. -/
theorem C5_shuffles (env : FilterKind → CodecImpl) (w : Nat) (lvl : Int)
    (x : List Byte) (hw : 0 < w) :
    (x.length % w ≠ 0 →
      fwdFilter env w ⟨FilterKind.byteshuffle, lvl⟩ x = .error .encoding ∧
      fwdFilter env w ⟨FilterKind.bitshuffle, lvl⟩ x = .error .encoding) ∧
    (∀ y md, fwdFilter env w ⟨FilterKind.byteshuffle, lvl⟩ x = .ok (y, md) →
      revFilter env w ⟨FilterKind.byteshuffle, lvl⟩ y md = .ok x) ∧
    (∀ y md, fwdFilter env w ⟨FilterKind.bitshuffle, lvl⟩ x = .ok (y, md) →
      revFilter env w ⟨FilterKind.bitshuffle, lvl⟩ y md = .ok x) := by
  refine ⟨?_, ?_, ?_⟩
  · intro hmis
    constructor
    · simp only [fwdFilter]
      rw [if_pos (Or.inr hmis)]
    · simp only [fwdFilter]
      rw [if_pos (Or.inr hmis)]
  · exact fun y md h => revFilter_fwd_byteshuffle env w lvl x y md h
  · exact fun y md h => revFilter_fwd_bitshuffle env w lvl x y md h

/-- Witness for C5 at a one-byte chunk with element width 2. -/
theorem C5_shuffles_witness :
    (0 : Nat) < 2 ∧ ([(9 : Byte)].length % 2 ≠ 0) ∧
    fwdFilter idEnv 2 ⟨FilterKind.byteshuffle, 0⟩ [(9 : Byte)] =
      .error .encoding :=
  ⟨by norm_num, by decide,
   ((C5_shuffles idEnv 2 0 [(9 : Byte)] (by norm_num)).1 (by decide)).1⟩

/-- C6: a NOOP-only pipeline over 4096 zero bytes with max chunk size 1024
produces exactly 4 chunk records, each with original and filtered size 1024,
and the reverse pass reproduces the 4096 zero bytes. -/
theorem C6_noop_scenario :
    runForward idEnv 1 [⟨FilterKind.noop, 0⟩] 1024
        (List.replicate 4096 (0 : Byte)) =
      .ok (List.replicate 4
        ⟨1024, 1024, [FMeta.mnone], List.replicate 1024 (0 : Byte)⟩) ∧
    (List.replicate 4
      (⟨1024, 1024, [FMeta.mnone], List.replicate 1024 (0 : Byte)⟩ :
        ChunkRecord)).length = 4 ∧
    (∀ r ∈ List.replicate 4
      (⟨1024, 1024, [FMeta.mnone], List.replicate 1024 (0 : Byte)⟩ :
        ChunkRecord), r.original_size = 1024 ∧ r.filtered_size = 1024) ∧
    runReverse idEnv 1 [⟨FilterKind.noop, 0⟩]
      (List.replicate 4
        ⟨1024, 1024, [FMeta.mnone], List.replicate 1024 (0 : Byte)⟩) =
      .ok (List.replicate 4096 (0 : Byte)) := by
  refine ⟨runForward_noop4096, rfl, ?_, ?_⟩
  · intro r hr
    rw [List.eq_of_mem_replicate hr]
    exact ⟨rfl, rfl⟩
  · exact runReverse_runForward idEnv idEnv_good 1 [⟨FilterKind.noop, 0⟩]
      1024 (by norm_num) _ _ runForward_noop4096

/-- C4: setting an option that the filter's kind does not recognize fails
with a configuration error at `set_option` time, and the failed call leaves
the filter's option state unchanged. -/
theorem C4_set_option_unrecognized (f : FilterState) (o : FilterOption)
    (v : Int) (h : recognizesOption f.kind o = false) :
    f.set_option o v = (.error .configuration, f) := by
  simp [FilterState.set_option, h]

/-- Witness for C4: a compression level on the NOOP filter. -/
theorem C4_set_option_unrecognized_witness :
    recognizesOption (mkFilter FilterKind.noop).kind
      FilterOption.COMPRESSION_LEVEL = false ∧
    (mkFilter FilterKind.noop).set_option FilterOption.COMPRESSION_LEVEL 5 =
      (.error .configuration, mkFilter FilterKind.noop) :=
  ⟨rfl, C4_set_option_unrecognized (mkFilter FilterKind.noop)
    FilterOption.COMPRESSION_LEVEL 5 rfl⟩

/-- C8: getting an unset recognized option returns the filter-kind-specific
documented default — a pure constant per kind, with compression level −1
denoting the codec default — and `get_option` never mutates the filter. -/
theorem C8_get_option_default (f : FilterState) (o : FilterOption)
    (hrec : recognizesOption f.kind o = true) (hunset : f.opts o = none) :
    f.get_option o = (.ok (optionDefault f.kind o), f) ∧
    (∀ o2 : FilterOption, (f.get_option o2).2 = f) ∧
    (∀ k : FilterKind, optionDefault k .COMPRESSION_LEVEL = -1) := by
  refine ⟨?_, ?_, ?_⟩
  · simp [FilterState.get_option, hrec, hunset]
  · intro o2
    unfold FilterState.get_option
    split <;> rfl
  · intro k
    rfl

/-- Witness for C8: the unset compression level of a fresh GZIP filter. -/
theorem C8_get_option_default_witness :
    recognizesOption (mkFilter FilterKind.gzip).kind
      FilterOption.COMPRESSION_LEVEL = true ∧
    (mkFilter FilterKind.gzip).opts FilterOption.COMPRESSION_LEVEL = none ∧
    (mkFilter FilterKind.gzip).get_option FilterOption.COMPRESSION_LEVEL =
      (.ok (-1), mkFilter FilterKind.gzip) :=
  ⟨rfl, rfl,
   (C8_get_option_default (mkFilter FilterKind.gzip)
     FilterOption.COMPRESSION_LEVEL rfl rfl).1⟩

/-- C9: `Filter::to_str` is total over filter-type values — each of the
eleven enumerators maps to its fixed name, and every other value maps to
the empty string rather than failing. -/
theorem C9_to_str_total :
    Filter.to_str TILEDB_FILTER_NONE = "NOOP" ∧
    Filter.to_str TILEDB_FILTER_GZIP = "GZIP" ∧
    Filter.to_str TILEDB_FILTER_ZSTD = "ZSTD" ∧
    Filter.to_str TILEDB_FILTER_LZ4 = "LZ4" ∧
    Filter.to_str TILEDB_FILTER_RLE = "RLE" ∧
    Filter.to_str TILEDB_FILTER_BZIP2 = "BZIP2" ∧
    Filter.to_str TILEDB_FILTER_DOUBLE_DELTA = "DOUBLE_DELTA" ∧
    Filter.to_str TILEDB_FILTER_BIT_WIDTH_REDUCTION = "BIT_WIDTH_REDUCTION" ∧
    Filter.to_str TILEDB_FILTER_BITSHUFFLE = "BITSHUFFLE" ∧
    Filter.to_str TILEDB_FILTER_BYTESHUFFLE = "BYTESHUFFLE" ∧
    Filter.to_str TILEDB_FILTER_POSITIVE_DELTA = "POSITIVE_DELTA" ∧
    ∀ t : Int,
      t ∉ ([TILEDB_FILTER_NONE, TILEDB_FILTER_GZIP, TILEDB_FILTER_ZSTD,
        TILEDB_FILTER_LZ4, TILEDB_FILTER_RLE, TILEDB_FILTER_BZIP2,
        TILEDB_FILTER_DOUBLE_DELTA, TILEDB_FILTER_BIT_WIDTH_REDUCTION,
        TILEDB_FILTER_BITSHUFFLE, TILEDB_FILTER_BYTESHUFFLE,
        TILEDB_FILTER_POSITIVE_DELTA] : List Int) →
      Filter.to_str t = "" := by
  refine ⟨rfl, rfl, rfl, rfl, rfl, rfl, rfl, rfl, rfl, rfl, rfl, ?_⟩
  intro t ht
  simp only [List.mem_cons, List.not_mem_nil, or_false, not_or] at ht
  obtain ⟨h0, h1, h2, h3, h4, h5, h6, h7, h8, h9, h10⟩ := ht
  unfold Filter.to_str
  rw [if_neg h0, if_neg h1, if_neg h2, if_neg h3, if_neg h4, if_neg h5,
    if_neg h6, if_neg h7, if_neg h8, if_neg h9, if_neg h10]

/-- Witness for C9 at the out-of-range value 42. -/
theorem C9_to_str_total_witness :
    ((42 : Int) ∉ ([TILEDB_FILTER_NONE, TILEDB_FILTER_GZIP,
      TILEDB_FILTER_ZSTD, TILEDB_FILTER_LZ4, TILEDB_FILTER_RLE,
      TILEDB_FILTER_BZIP2, TILEDB_FILTER_DOUBLE_DELTA,
      TILEDB_FILTER_BIT_WIDTH_REDUCTION, TILEDB_FILTER_BITSHUFFLE,
      TILEDB_FILTER_BYTESHUFFLE, TILEDB_FILTER_POSITIVE_DELTA] : List Int)) ∧
    Filter.to_str 42 = "" :=
  ⟨by decide, C9_to_str_total.2.2.2.2.2.2.2.2.2.2.2 42 (by decide)⟩

/-- C7: the serialization boundary always returns an explicit status — a
serialization type other than JSON and CAPNP yields an error status in both
directions, every internal exception is mapped to an error status, and an
Ok status from `query_serialize` always comes with an output buffer. -/
theorem C7_serialization_status (q : QueryEnv) (n : Nat) :
    (query_serialize q (.UNKNOWN n)).1 ≠ Status.ok ∧
    query_deserialize q (.UNKNOWN n) =
      Status.error "Unknown serialization type passed" ∧
    (q.capnpStatus = Status.ok →
      (query_serialize q (.UNKNOWN n)).1 =
        Status.error "Unknown serialization type passed") ∧
    (∀ e, q.capnpStatus = Status.ok → q.jsonEncode = .error e →
      (query_serialize q .JSON).1 =
        Status.error ("Error serializing query: " ++ e)) ∧
    (∀ e, q.capnpStatus = Status.ok → q.binEncode = .error e →
      (query_serialize q .CAPNP).1 =
        Status.error ("Error serializing query: " ++ e)) ∧
    (∀ e, q.jsonDecode = .error e →
      query_deserialize q .JSON =
        Status.error ("Error serializing query: " ++ e)) ∧
    (∀ e, q.binDecode = .error e →
      query_deserialize q .CAPNP =
        Status.error ("Error serializing query: " ++ e)) ∧
    (∀ t, (query_serialize q t).1 = Status.ok →
      (query_serialize q t).2.isSome = true) := by
  refine ⟨?_, rfl, ?_, ?_, ?_, ?_, ?_, ?_⟩
  · unfold query_serialize
    cases q.capnpStatus <;> simp
  · intro hc
    unfold query_serialize
    rw [hc]
  · intro e hc he
    unfold query_serialize
    rw [hc, he]
  · intro e hc he
    unfold query_serialize
    rw [hc, he]
  · intro e he
    unfold query_deserialize
    rw [he]
  · intro e he
    unfold query_deserialize
    rw [he]
  · intro t
    unfold query_serialize
    cases hc : q.capnpStatus with
    | error m => intro hh; exact absurd hh (by simp)
    | ok =>
      cases t with
      | JSON =>
        cases hj : q.jsonEncode with
        | ok s => intro _; rfl
        | error e => intro hh; exact absurd hh (by simp)
      | CAPNP =>
        cases hb : q.binEncode with
        | ok s => intro _; rfl
        | error e => intro hh; exact absurd hh (by simp)
      | UNKNOWN m => intro hh; exact absurd hh (by simp)

/-- Witness for C7 at a concrete environment and serialization type. -/
theorem C7_serialization_status_witness :
    (QueryEnv.mk Status.ok (.error "boom") (.ok []) (.ok .ok)
      (.ok .ok)).capnpStatus = Status.ok ∧
    (QueryEnv.mk Status.ok (.error "boom") (.ok []) (.ok .ok)
      (.ok .ok)).jsonEncode = .error "boom" ∧
    (query_serialize (QueryEnv.mk Status.ok (.error "boom") (.ok [])
      (.ok .ok) (.ok .ok)) .JSON).1 =
      Status.error ("Error serializing query: " ++ "boom") :=
  ⟨rfl, rfl,
   (C7_serialization_status (QueryEnv.mk Status.ok (.error "boom") (.ok [])
     (.ok .ok) (.ok .ok)) 0).2.2.2.1 "boom" rfl rfl⟩

/-- C10 counterexample: when the schema fetch fails (return code −1, as the
storage manager may return), `tiledb_generate_data` propagates that code for
an unknown file type instead of returning `TILEDB_EIARG`, even though
`cell_num` is positive and the file type is neither "csv" nor "bin". -/
theorem C10_generate_data_counterexample :
    (tiledb_generate_data (-1) 0 0 "xml" 5).1 ≠ TILEDB_EIARG ∧
    ("xml" : String) ≠ "csv" ∧ ("xml" : String) ≠ "bin" ∧
    (0 : Int) < 5 := by
  refine ⟨?_, ?_, ?_, ?_⟩ <;> decide

/-- C10 (amended): `tiledb_generate_data` rejects a non-positive cell count
with `TILEDB_EIARG` before any storage-manager access; when schema retrieval
succeeds it returns `TILEDB_EIARG` for a file type other than "csv" and
"bin"; when schema retrieval fails its return code is propagated verbatim;
and it returns 0 exactly when schema retrieval and file generation both
succeed. -/
theorem C10_generate_data_behavior (schemaRC csvRC binRC : Int)
    (filetype : String) (cell_num : Int) :
    (cell_num ≤ 0 →
      tiledb_generate_data schemaRC csvRC binRC filetype cell_num =
        (TILEDB_EIARG, [])) ∧
    (0 < cell_num → schemaRC = 0 → filetype ≠ "csv" → filetype ≠ "bin" →
      tiledb_generate_data schemaRC csvRC binRC filetype cell_num =
        (TILEDB_EIARG, [.getSchema])) ∧
    (0 < cell_num → schemaRC ≠ 0 →
      tiledb_generate_data schemaRC csvRC binRC filetype cell_num =
        (schemaRC, [.getSchema])) ∧
    ((tiledb_generate_data schemaRC csvRC binRC filetype cell_num).1 = 0 ↔
      (0 < cell_num ∧ schemaRC = 0 ∧
        ((filetype = "csv" ∧ csvRC = 0) ∨
          (filetype = "bin" ∧ binRC = 0)))) := by
  unfold tiledb_generate_data
  split_ifs with h1 h2 h3 h4 h5 h6 <;>
    refine ⟨?_, ?_, ?_, ?_⟩ <;>
    simp_all [TILEDB_EIARG] <;>
    omega

/-- Witness for C10 (amended) at a non-positive cell count. -/
theorem C10_generate_data_behavior_witness :
    ((-7 : Int) ≤ 0) ∧
    tiledb_generate_data 0 0 0 "csv" (-7) = (TILEDB_EIARG, []) :=
  ⟨by norm_num,
   (C10_generate_data_behavior 0 0 0 "csv" (-7)).1 (by norm_num)⟩

end TileDB
